import Mathlib

/-
Verification of the universal-hashing demonstration script
(src/minhash/universalhash.py) against its specification.

The script works with Python floats throughout; we embed the values as
exact rationals (ℚ).  Python's binary `%` operator on nonzero divisor
`y` returns `t - y * floor (t / y)`, and raises ZeroDivisionError when
`y = 0`; we model the fallible operator with `Option`.  The global
pseudo-random generator `random.random()` is modelled as an explicit
stream `u : ℕ → ℚ` of its successive return values (each in `[0, 1)`),
consumed in program order: draw 0 initialises `a`, draw 1 initialises
`b`, and draws `2 + i` feed the sampling loop.
-/

namespace UniversalHash

/-- Value of Python's `%` on rationals when the divisor is nonzero:
`t - y * ⌊t / y⌋` (the result whose sign follows the divisor). -/
def pymodVal (t y : ℚ) : ℚ := t - y * ⌊t / y⌋

/-- Python's binary `%` operator: `none` models ZeroDivisionError. -/
def pymod (t y : ℚ) : Option ℚ :=
  if y = 0 then none else some (pymodVal t y)

/-- Source `create_hashing(a, b, p, m)`:
`lambda x : ((a*x+b) % p) % m`, with each `%` fallible. -/
def create_hashing (A B P M : ℚ) : ℚ → Option ℚ :=
  fun q => (pymod (A * q + B) P).bind fun r => pymod r M

/-- Modelled from the spec's formula: `h(x) = ((a*x + b) mod p) mod m`,
read off the contract sentence rather than the source line. -/
def spec_hash (A B P M q : ℚ) : Option ℚ :=
  (pymod (A * q + B) P).bind fun r => pymod r M

/-- Source `random_int32`: `lambda : random.random()*((1<<32)-1)`,
applied to one stream value `u` of `random.random()`. -/
def random_int32 (u : ℚ) : ℚ := u * ((2 : ℚ) ^ 32 - 1)

/-- Source coefficient `a = random_int32()`: first random draw. -/
def a (u : ℕ → ℚ) : ℚ := random_int32 (u 0)

/-- Source coefficient `b = random_int32()`: second random draw. -/
def b (u : ℕ → ℚ) : ℚ := random_int32 (u 1)

/-- Source `p = (1<<61)-1` (a Mersenne prime). -/
def p : ℚ := 2 ^ 61 - 1

/-- Source `m = (1<<32)`. -/
def m : ℚ := 2 ^ 32

/-- Source `h = create_hashing(a, b, p, m)`. -/
def h (u : ℕ → ℚ) : ℚ → Option ℚ := create_hashing (a u) (b u) p m

/-- Source sample list `x = [h(random_int32()) for i in xrange(2**18)]`;
iteration `i` consumes stream value `u (2 + i)`.  The comprehension
fails (propagates the exception) if any element evaluation fails. -/
def x (u : ℕ → ℚ) : Option (List ℚ) :=
  (List.range (2 ^ 18)).mapM fun i => h u (random_int32 (u (2 + i)))

/-- Python `max` over a list: raises (`none`) on the empty list. -/
def pymax : List ℚ → Option ℚ
  | [] => none
  | y :: ys => some (ys.foldl max y)

/-- Python `min` over a list: raises (`none`) on the empty list. -/
def pymin : List ℚ → Option ℚ
  | [] => none
  | y :: ys => some (ys.foldl min y)

/-- Source `print (1<<32)-1, max(x), 0, min(x)`: the four numbers
written to standard output, in print order. -/
def printLine (u : ℕ → ℚ) : Option (List ℚ) := do
  let l ← x u
  let mx ← pymax l
  let mn ← pymin l
  pure [(2 : ℚ) ^ 32 - 1, mx, 0, mn]

/-- The value `((A*q+B) % P) % M` taken by the hash when both moduli
are nonzero. -/
def hVal (A B P M q : ℚ) : ℚ := pymodVal (pymodVal (A * q + B) P) M

theorem pymod_of_ne (t y : ℚ) (hy : y ≠ 0) : pymod t y = some (pymodVal t y) := by
  simp [pymod, hy]

theorem pymodVal_eq_fract (t y : ℚ) (hy : y ≠ 0) :
    pymodVal t y = y * Int.fract (t / y) := by
  unfold pymodVal Int.fract
  field_simp

theorem pymodVal_nonneg (t y : ℚ) (hy : 0 < y) : 0 ≤ pymodVal t y := by
  rw [pymodVal_eq_fract t y (ne_of_gt hy)]
  exact mul_nonneg hy.le (Int.fract_nonneg _)

theorem pymodVal_lt (t y : ℚ) (hy : 0 < y) : pymodVal t y < y := by
  rw [pymodVal_eq_fract t y (ne_of_gt hy)]
  calc y * Int.fract (t / y) < y * 1 :=
        mul_lt_mul_of_pos_left (Int.fract_lt_one _) hy
    _ = y := mul_one y

theorem pymodVal_of_lt (t y : ℚ) (h0 : 0 ≤ t) (hty : t < y) :
    pymodVal t y = t := by
  have hy : 0 < y := lt_of_le_of_lt h0 hty
  have hfloor : ⌊t / y⌋ = 0 := by
    rw [Int.floor_eq_zero_iff]
    constructor
    · exact div_nonneg h0 hy.le
    · rw [div_lt_one hy]; exact hty
  simp [pymodVal, hfloor]

theorem p_pos : (0 : ℚ) < p := by norm_num [p]

theorem m_pos : (0 : ℚ) < m := by norm_num [m]

theorem create_hashing_eq_some (A B P M q : ℚ) (hP : P ≠ 0) (hM : M ≠ 0) :
    create_hashing A B P M q = some (hVal A B P M q) := by
  simp [create_hashing, hVal, pymod_of_ne _ _ hP, pymod_of_ne _ _ hM]

/-- C1: for all parameters `a b p m`, the function returned by
`create_hashing(a, b, p, m)` computes `h(x) = ((a*x + b) mod p) mod m`
for every input `x`. -/
theorem c1_create_hashing_formula (A B P M q : ℚ) :
    create_hashing A B P M q = spec_hash A B P M q := rfl

/-- C5: with `a=0, b=5, p=97, m=10` the constructed hash returns `5`
for every input (the output is independent of the input). -/
theorem c5_degenerate_constant (q : ℚ) :
    create_hashing 0 5 97 10 q = some 5 := by
  have h5 : (0 : ℚ) * q + 5 = 5 := by ring
  rw [create_hashing, h5,
    pymod_of_ne 5 97 (by norm_num), Option.some_bind,
    pymodVal_of_lt 5 97 (by norm_num) (by norm_num),
    pymod_of_ne 5 10 (by norm_num),
    pymodVal_of_lt 5 10 (by norm_num) (by norm_num)]

/-- C2: assuming `a, b` in `[0, p)` and with the program parameters
`p = 2^61 - 1`, `m = 2^32`, the hash of every non-negative input lies
in `[0, m)`. -/
theorem c2_output_in_range (A B q : ℚ) (hA0 : 0 ≤ A) (hAp : A < p)
    (hB0 : 0 ≤ B) (hBp : B < p) (hq : 0 ≤ q) :
    ∃ y, create_hashing A B p m q = some y ∧ 0 ≤ y ∧ y < m :=
  ⟨hVal A B p m q,
   create_hashing_eq_some A B p m q (ne_of_gt p_pos) (ne_of_gt m_pos),
   pymodVal_nonneg _ _ m_pos, pymodVal_lt _ _ m_pos⟩

theorem c2_output_in_range_witness :
    (0 : ℚ) ≤ 0 ∧ (0 : ℚ) < p ∧ (0 : ℚ) ≤ 5 ∧ (5 : ℚ) < p ∧ (0 : ℚ) ≤ 7 ∧
    ∃ y, create_hashing 0 5 p m 7 = some y ∧ 0 ≤ y ∧ y < m :=
  ⟨le_refl 0, by norm_num [p], by norm_num, by norm_num [p], by norm_num,
   c2_output_in_range 0 5 7 (le_refl 0) (by norm_num [p]) (by norm_num)
     (by norm_num [p]) (by norm_num)⟩

/-- C7: with the program moduli `p = 2^61 - 1` and `m = 2^32` both
nonzero, evaluating the constructed hash on any non-negative input
never reaches the error branch: it always returns a value. -/
theorem c7_total_on_domain (A B q : ℚ) (hq : 0 ≤ q) :
    ∃ y, create_hashing A B p m q = some y :=
  ⟨hVal A B p m q,
   create_hashing_eq_some A B p m q (ne_of_gt p_pos) (ne_of_gt m_pos)⟩

theorem c7_total_on_domain_witness :
    (0 : ℚ) ≤ 3 ∧ ∃ y, create_hashing 1 2 p m 3 = some y :=
  ⟨by norm_num, c7_total_on_domain 1 2 3 (by norm_num)⟩

/-- C9: scaling a generator value `u ∈ [0, 1)` by `2^32 - 1` gives a
value in `[0, 2^32 - 1)`: non-negative, strictly below `2^32 - 1`, and
hence strictly below `p = 2^61 - 1`; the value `2^32 - 1` itself is
never produced. -/
theorem c9_random_int32_range (u : ℚ) (h0 : 0 ≤ u) (h1 : u < 1) :
    0 ≤ random_int32 u ∧ random_int32 u < 2 ^ 32 - 1 ∧
    random_int32 u < p ∧ random_int32 u ≠ 2 ^ 32 - 1 := by
  have hpos : (0 : ℚ) < 2 ^ 32 - 1 := by norm_num
  have hlt : random_int32 u < 2 ^ 32 - 1 := by
    calc random_int32 u = u * ((2 : ℚ) ^ 32 - 1) := rfl
      _ < 1 * ((2 : ℚ) ^ 32 - 1) := by
          exact mul_lt_mul_of_pos_right h1 hpos
      _ = (2 : ℚ) ^ 32 - 1 := one_mul _
  refine ⟨mul_nonneg h0 hpos.le, hlt, ?_, ne_of_lt hlt⟩
  calc random_int32 u < 2 ^ 32 - 1 := hlt
    _ < p := by norm_num [p]

theorem c9_random_int32_range_witness :
    (0 : ℚ) ≤ 1 / 2 ∧ (1 : ℚ) / 2 < 1 ∧
    (0 ≤ random_int32 (1 / 2) ∧ random_int32 (1 / 2) < 2 ^ 32 - 1 ∧
     random_int32 (1 / 2) < p ∧ random_int32 (1 / 2) ≠ 2 ^ 32 - 1) :=
  ⟨by norm_num, by norm_num,
   c9_random_int32_range (1 / 2) (by norm_num) (by norm_num)⟩

/-- C10: there are parameter and input values in the generator's range
`[0, 2^32 - 1)` for which the hash output is strictly between
`m - 1 = 2^32 - 1` and `m = 2^32`, so the observed maximum can exceed
the printed theoretical maximum. -/
theorem c10_output_can_exceed_m_sub_one :
    ∃ A B q : ℚ,
      0 ≤ A ∧ A < 2 ^ 32 - 1 ∧ 0 ≤ B ∧ B < 2 ^ 32 - 1 ∧
      0 ≤ q ∧ q < 2 ^ 32 - 1 ∧
      ∃ y, create_hashing A B p m q = some y ∧ m - 1 < y ∧ y < m := by
  refine ⟨1, 3 / 2, 2 ^ 32 - 2, by norm_num, by norm_num, by norm_num,
    by norm_num, by norm_num, by norm_num, 2 ^ 32 - 1 / 2, ?_, ?_, ?_⟩
  · rw [create_hashing_eq_some 1 (3 / 2) p m (2 ^ 32 - 2)
      (ne_of_gt p_pos) (ne_of_gt m_pos)]
    have harg : (1 : ℚ) * (2 ^ 32 - 2) + 3 / 2 = 2 ^ 32 - 1 / 2 := by ring
    unfold hVal
    rw [harg,
      pymodVal_of_lt (2 ^ 32 - 1 / 2) p (by norm_num) (by norm_num [p]),
      pymodVal_of_lt (2 ^ 32 - 1 / 2) m (by norm_num) (by norm_num [m])]
  · norm_num [m]
  · norm_num [m]

/-- C6: with `a=1, b=0, p=97, m=10` and input `x = 50`, the constructed
hash returns `0`. -/
theorem c6_example_fifty :
    create_hashing 1 0 97 10 50 = some 0 := by
  have h50 : (1 : ℚ) * 50 + 0 = 50 := by norm_num
  rw [create_hashing, h50,
    pymod_of_ne 50 97 (by norm_num), Option.some_bind,
    pymodVal_of_lt 50 97 (by norm_num) (by norm_num),
    pymod_of_ne 50 10 (by norm_num)]
  have hfloor : ⌊(50 : ℚ) / 10⌋ = 5 := by
    norm_num
  simp [pymodVal, hfloor]
  norm_num

theorem mapM_aux_eq_map {α β : Type} (f : α → Option β) (g : α → β) :
    ∀ l : List α, (∀ t ∈ l, f t = some (g t)) → l.mapM' f = some (l.map g) := by
  intro l
  induction l with
  | nil => intro _; rfl
  | cons hd tl ih =>
      intro hf
      have h1 : f hd = some (g hd) := hf hd (List.mem_cons_self hd tl)
      have h2 : tl.mapM' f = some (tl.map g) :=
        ih fun t ht => hf t (List.mem_cons_of_mem hd ht)
      rw [List.mapM'_cons, h1, h2]
      rfl

theorem mapM_eq_map {α β : Type} (f : α → Option β) (g : α → β) (l : List α)
    (hf : ∀ t ∈ l, f t = some (g t)) : l.mapM f = some (l.map g) := by
  rw [← List.mapM'_eq_mapM]
  exact mapM_aux_eq_map f g l hf

theorem x_eq_some (u : ℕ → ℚ) :
    x u = some ((List.range (2 ^ 18)).map fun i =>
      hVal (a u) (b u) p m (random_int32 (u (2 + i)))) := by
  apply mapM_eq_map
  intro t ht
  exact create_hashing_eq_some (a u) (b u) p m (random_int32 (u (2 + t)))
    (ne_of_gt p_pos) (ne_of_gt m_pos)

/-- C3: the driver builds a sample sequence of length exactly `2^18`
whose element at index `i` is the hash applied to the pseudo-random
domain value drawn at iteration `i`. -/
theorem c3_sample_shape (u : ℕ → ℚ) :
    ∃ l, x u = some l ∧ l.length = 2 ^ 18 ∧
      ∀ i, i < 2 ^ 18 → l[i]? = h u (random_int32 (u (2 + i))) := by
  refine ⟨_, x_eq_some u, by simp, ?_⟩
  intro i hi
  rw [List.getElem?_map, List.getElem?_range hi]
  show some (hVal (a u) (b u) p m (random_int32 (u (2 + i)))) =
    h u (random_int32 (u (2 + i)))
  exact (create_hashing_eq_some (a u) (b u) p m (random_int32 (u (2 + i)))
    (ne_of_gt p_pos) (ne_of_gt m_pos)).symm

theorem c3_sample_shape_witness :
    ∃ l, x (fun n => 1 / 2) = some l ∧ l.length = 2 ^ 18 ∧
      ∀ i, i < 2 ^ 18 →
        l[i]? = h (fun n => 1 / 2) (random_int32 ((fun n : ℕ => (1 : ℚ) / 2) (2 + i))) :=
  c3_sample_shape fun n => 1 / 2

theorem seed_le_foldl_max (ys : List ℚ) (y : ℚ) : y ≤ ys.foldl max y := by
  induction ys generalizing y with
  | nil => exact le_refl y
  | cons z zs ih =>
      rw [List.foldl_cons]
      exact le_trans (le_max_left y z) (ih (max y z))

theorem foldl_max_mem (ys : List ℚ) (y : ℚ) :
    ys.foldl max y = y ∨ ys.foldl max y ∈ ys := by
  induction ys generalizing y with
  | nil => exact Or.inl rfl
  | cons z zs ih =>
      rw [List.foldl_cons]
      rcases ih (max y z) with hc | hc
      · rcases max_choice y z with hm | hm
        · exact Or.inl (by rw [hc, hm])
        · exact Or.inr (by rw [hc, hm]; exact List.mem_cons_self z zs)
      · exact Or.inr (List.mem_cons_of_mem z hc)

theorem le_foldl_max (ys : List ℚ) (y t : ℚ) (ht : t = y ∨ t ∈ ys) :
    t ≤ ys.foldl max y := by
  induction ys generalizing y with
  | nil =>
      rcases ht with hh | hh
      · exact le_of_eq hh
      · exact absurd hh (List.not_mem_nil t)
  | cons z zs ih =>
      rw [List.foldl_cons]
      rcases ht with hh | hh
      · exact le_trans (le_of_eq hh)
          (le_trans (le_max_left y z) (seed_le_foldl_max zs (max y z)))
      · rcases List.mem_cons.mp hh with hh | hh
        · exact le_trans (le_of_eq hh)
            (le_trans (le_max_right y z) (seed_le_foldl_max zs (max y z)))
        · exact ih (max y z) (Or.inr hh)

theorem seed_ge_foldl_min (ys : List ℚ) (y : ℚ) : ys.foldl min y ≤ y := by
  induction ys generalizing y with
  | nil => exact le_refl y
  | cons z zs ih =>
      rw [List.foldl_cons]
      exact le_trans (ih (min y z)) (min_le_left y z)

theorem foldl_min_mem (ys : List ℚ) (y : ℚ) :
    ys.foldl min y = y ∨ ys.foldl min y ∈ ys := by
  induction ys generalizing y with
  | nil => exact Or.inl rfl
  | cons z zs ih =>
      rw [List.foldl_cons]
      rcases ih (min y z) with hc | hc
      · rcases min_choice y z with hm | hm
        · exact Or.inl (by rw [hc, hm])
        · exact Or.inr (by rw [hc, hm]; exact List.mem_cons_self z zs)
      · exact Or.inr (List.mem_cons_of_mem z hc)

theorem foldl_min_le (ys : List ℚ) (y t : ℚ) (ht : t = y ∨ t ∈ ys) :
    ys.foldl min y ≤ t := by
  induction ys generalizing y with
  | nil =>
      rcases ht with hh | hh
      · exact le_of_eq hh.symm
      · exact absurd hh (List.not_mem_nil t)
  | cons z zs ih =>
      rw [List.foldl_cons]
      rcases ht with hh | hh
      · exact le_trans
          (le_trans (seed_ge_foldl_min zs (min y z)) (min_le_left y z))
          (le_of_eq hh.symm)
      · rcases List.mem_cons.mp hh with hh | hh
        · exact le_trans
            (le_trans (seed_ge_foldl_min zs (min y z)) (min_le_right y z))
            (le_of_eq hh.symm)
        · exact ih (min y z) (Or.inr hh)

theorem pymax_spec (l : List ℚ) (hl : l ≠ []) :
    ∃ mx, pymax l = some mx ∧ mx ∈ l ∧ ∀ t ∈ l, t ≤ mx := by
  match l with
  | [] => exact absurd rfl hl
  | y :: ys =>
      refine ⟨ys.foldl max y, rfl, ?_, ?_⟩
      · rcases foldl_max_mem ys y with hc | hc
        · rw [hc]; exact List.mem_cons_self y ys
        · exact List.mem_cons_of_mem y hc
      · intro t ht
        exact le_foldl_max ys y t (List.mem_cons.mp ht)

theorem pymin_spec (l : List ℚ) (hl : l ≠ []) :
    ∃ mn, pymin l = some mn ∧ mn ∈ l ∧ ∀ t ∈ l, mn ≤ t := by
  match l with
  | [] => exact absurd rfl hl
  | y :: ys =>
      refine ⟨ys.foldl min y, rfl, ?_, ?_⟩
      · rcases foldl_min_mem ys y with hc | hc
        · rw [hc]; exact List.mem_cons_self y ys
        · exact List.mem_cons_of_mem y hc
      · intro t ht
        exact foldl_min_le ys y t (List.mem_cons.mp ht)

theorem sample_ne_nil (u : ℕ → ℚ) : ((List.range (2 ^ 18)).map fun i =>
    hVal (a u) (b u) p m (random_int32 (u (2 + i)))) ≠ [] := by
  intro hnil
  have hlen := congrArg List.length hnil
  simp at hlen

theorem printLine_formula (u : ℕ → ℚ) (l : List ℚ) (mx mn : ℚ)
    (hx : x u = some l) (hmx : pymax l = some mx) (hmn : pymin l = some mn) :
    printLine u = some [(2 : ℚ) ^ 32 - 1, mx, 0, mn] := by
  simp only [printLine, Option.pure_def, Option.bind_eq_bind, hx,
    Option.some_bind, hmx, hmn]

/-- C4: the console line is exactly four numbers in this order: the
theoretical maximum `m - 1` (with `m = 2^32`), the observed maximum of
the sample, the theoretical minimum `0`, and the observed minimum of
the sample. -/
theorem c4_console_line (u : ℕ → ℚ) :
    ∃ l out, x u = some l ∧ printLine u = some out ∧
      out.length = 4 ∧
      out[0]? = some (m - 1) ∧
      (∃ mx, out[1]? = some mx ∧ mx ∈ l ∧ ∀ t ∈ l, t ≤ mx) ∧
      out[2]? = some 0 ∧
      (∃ mn, out[3]? = some mn ∧ mn ∈ l ∧ ∀ t ∈ l, mn ≤ t) := by
  obtain ⟨mx, hmx, hmxmem, hmxle⟩ := pymax_spec _ (sample_ne_nil u)
  obtain ⟨mn, hmn, hmnmem, hmnle⟩ := pymin_spec _ (sample_ne_nil u)
  refine ⟨_, [(2 : ℚ) ^ 32 - 1, mx, 0, mn], x_eq_some u,
    printLine_formula u _ mx mn (x_eq_some u) hmx hmn, rfl, ?_,
    ⟨mx, rfl, hmxmem, hmxle⟩, rfl, ⟨mn, rfl, hmnmem, hmnle⟩⟩
  show some ((2 : ℚ) ^ 32 - 1) = some (m - 1)
  norm_num [m]

theorem c4_console_line_witness :
    ∃ l out, x (fun n => 1 / 2) = some l ∧ printLine (fun n => 1 / 2) = some out ∧
      out.length = 4 ∧
      out[0]? = some (m - 1) ∧
      (∃ mx, out[1]? = some mx ∧ mx ∈ l ∧ ∀ t ∈ l, t ≤ mx) ∧
      out[2]? = some 0 ∧
      (∃ mn, out[3]? = some mn ∧ mn ∈ l ∧ ∀ t ∈ l, mn ≤ t) :=
  c4_console_line fun n => 1 / 2

/-- C8: the sample sequence and the printed line are deterministic
functions of the random stream: two runs reading equal streams produce
equal sample sequences and equal printed values. -/
theorem c8_deterministic (u v : ℕ → ℚ) (huv : ∀ n, u n = v n) :
    x u = x v ∧ printLine u = printLine v := by
  have he : u = v := funext huv
  rw [he]
  exact ⟨rfl, rfl⟩

theorem c8_deterministic_witness :
    x (fun n => 1 / 2) = x (fun n => 1 / 2) ∧
    printLine (fun n => 1 / 2) = printLine (fun n => 1 / 2) :=
  c8_deterministic (fun n => 1 / 2) (fun n => 1 / 2) fun n => rfl

end UniversalHash
